import Mathlib

/-!
Verification of `src/scan_project.py` (directory-tree scanner).

The Python program walks a root directory, applies four string-matching
filters, extracts three fields from `package.json` manifests via a pydantic
model, and serializes the tree to JSON.  The shallow embedding below mirrors
the source:

* `Json` models the values produced by `json.loads`; a file's content is
  modelled as `Option Json` (`none` = the read or `json.loads` raised).
* `FS` models the filesystem subtree rooted at the scan directory; directory
  entries are an association list in `iterdir` order.
* `PackageJson`, `PackageJson.model_validate`, `extract_package_json_info`
  mirror lines 31–34 and 65–72 of the source.
* `build_tree` / `buildChildren` mirror the recursive walk of lines 94–146.
* `main` mirrors the root-directory precondition of lines 174–177 and the
  top-level structure of lines 185–189.
-/

/-- JSON values, as produced by `json.loads`; objects are association lists
(we model the post-parse dictionary, so keys are taken to be unique). -/
inductive Json : Type where
  | null : Json
  | bool : Bool → Json
  | num : Int → Json
  | str : String → Json
  | arr : List Json → Json
  | obj : List (String × Json) → Json

/-- A filesystem subtree.  A file carries its parsed content (`none` when the
bytes cannot be read or are not valid JSON — the program only ever inspects
content through `json.loads`); a directory carries its entries, named,
in `iterdir` order. -/
inductive FS : Type where
  | file : Option Json → FS
  | dir : List (String × FS) → FS

/-- `Path.is_file` for entries of the modelled tree. -/
def FS.isFile : FS → Bool
  | .file _ => true
  | .dir _ => false

/-- Output tree nodes: `FileNode` (source lines 37–43, the constant
`descripcion = ""` is left implicit) and `DirNode` (lines 46–50); `children`
is an insertion-ordered association list, like a Python `dict`. -/
inductive Node : Type where
  | file : String → Option (List (String × String)) → Option (List (String × String)) →
      Option (List (String × String)) → Node
  | dir : String → List (String × Node) → Node

/-- Discriminates `FileNode` from `DirNode` in the output tree. -/
def Node.isFileNode : Node → Bool
  | .file _ _ _ _ => true
  | .dir _ _ => false

/-- The `type` tag each node serializes with (lines 38 and 47). -/
def Node.typeStr : Node → String
  | .file _ _ _ _ => "file"
  | .dir _ _ => "directory"

/-- The `path` field of a node. -/
def Node.pathOf : Node → String
  | .file p _ _ _ => p
  | .dir p _ => p

/-- The `scripts` field of a node (`none` on directories). -/
def Node.scriptsOf : Node → Option (List (String × String))
  | .file _ s _ _ => s
  | .dir _ _ => none

/-- The `dependencies` field of a node (`none` on directories). -/
def Node.depsOf : Node → Option (List (String × String))
  | .file _ _ d _ => d
  | .dir _ _ => none

/-- The `devDependencies` field of a node (`none` on directories). -/
def Node.devDepsOf : Node → Option (List (String × String))
  | .file _ _ _ dd => dd
  | .dir _ _ => none

/-- The children of a node (`[]` on files). -/
def Node.childrenOf : Node → List (String × Node)
  | .file _ _ _ _ => []
  | .dir _ ch => ch

/-- The four filter sets taken by `build_tree` (lines 97–100); Python `set`s,
modelled as lists used only through membership. -/
structure Filters : Type where
  ignore : List String
  discard_files_in : List String
  discard_all_in : List String
  discard_files : List String

/-- The default `--ignore` set (lines 24–27). -/
def DEFAULT_IGNORE : List String :=
  ["node_modules", ".git", "__pycache__", ".venv", "venv",
   ".next", "dist", "build", ".nuxt", ".pytest_cache", ".mypy_cache"]

/-- Python `str.startswith`: character-sequence prefix test
(used at lines 126 and 136). -/
def strStartsWith (s pre : String) : Bool :=
  pre.data.isPrefixOf s.data

/-- The `.replace("\\", "/")` normalization of lines 104 and 122. -/
def normSlash (s : String) : String :=
  ⟨s.data.map (fun c => if c = '\x5c' then '/' else c)⟩

/-- `str(item.relative_to(root)).replace("\\", "/")`: the scan root itself is
`"."`, a child of the root is its bare name, deeper entries join with `"/"`.
The backslash normalization is applied to the appended name (the accumulated
`rel` is already normalized). -/
def relJoin (rel name : String) : String :=
  if rel = "." then normSlash name else rel ++ "/" ++ normSlash name

/-- Python `str.lower`, character by character. -/
def lowerStr (s : String) : String :=
  ⟨s.data.map Char.toLower⟩

/-- Code-point lexicographic `≤` on character sequences (Python string
comparison). -/
def charListLe : List Char → List Char → Bool
  | [], _ => true
  | _ :: _, [] => false
  | a :: as, b :: bs =>
      if a < b then true else if b < a then false else charListLe as bs

/-- Python `≤` on strings. -/
def strLe (a b : String) : Bool := charListLe a.data b.data

/-- Python `≤` on the sort key `(p.is_file(), p.name.lower())` of line 111:
lexicographic on the pair, with `False < True`. -/
def keyLe : Bool × String → Bool × String → Bool
  | (fa, sa), (fb, sb) => (!fa && fb) || (fa == fb && strLe sa sb)

/-- The sort key `(p.is_file(), p.name.lower())` of line 111. -/
def entryKey (x : String × FS) : Bool × String := (x.2.isFile, lowerStr x.1)

/-- The same sort key, read off a produced child. -/
def childKey (x : String × Node) : Bool × String := (x.2.isFileNode, lowerStr x.1)

/-- Sort key comparison for filesystem entries (line 111). -/
def entryLeB (a b : String × FS) : Bool :=
  keyLe (entryKey a) (entryKey b)

/-- Sort key comparison for produced children, same key read off the output
node. -/
def childLeB (a b : String × Node) : Bool :=
  keyLe (childKey a) (childKey b)

/-- `sorted(current.iterdir(), key=lambda p: (p.is_file(), p.name.lower()))`
(line 111): a stable sort by `entryLeB`. -/
def sortItems (l : List (String × FS)) : List (String × FS) :=
  List.insertionSort (fun a b => entryLeB a b = true) l

/-- First-match field lookup in a parsed JSON object. -/
def getField : List (String × Json) → String → Option Json
  | [], _ => none
  | (k, v) :: rest, key => if k = key then some v else getField rest key

/-- Validates the entries of a JSON object as string-to-string pairs,
failing on the first non-string value. -/
def validateStrPairs : List (String × Json) → Option (List (String × String))
  | [] => some []
  | (k, v) :: rest =>
      match v with
      | .str s => (validateStrPairs rest).map (fun r => (k, s) :: r)
      | _ => none

/-- pydantic validation of a `Dict[str, str]` field value: must be a JSON
object whose values are all strings. -/
def validateStrDict : Json → Option (List (String × String))
  | .obj fields => validateStrPairs fields
  | _ => none

/-- The pydantic model of lines 31–34: three `Dict[str, str]` fields, each
defaulting to the empty dict when absent. -/
structure PackageJson : Type where
  scripts : List (String × String)
  dependencies : List (String × String)
  devDependencies : List (String × String)

/-- `PackageJson.model_validate(data)` (line 68): fails unless `data` is an
object; each of the three known fields, when present, must validate as a
string-to-string dict, and defaults to empty when absent; extra fields are
ignored. -/
def PackageJson.model_validate (j : Json) : Option PackageJson :=
  match j with
  | .obj fields => do
      let s ← match getField fields "scripts" with
        | none => some []
        | some v => validateStrDict v
      let d ← match getField fields "dependencies" with
        | none => some []
        | some v => validateStrDict v
      let dd ← match getField fields "devDependencies" with
        | none => some []
        | some v => validateStrDict v
      some ⟨s, d, dd⟩
  | _ => none

/-- The keyword arguments splatted into `FileNode(**file_info)`: each of the
three fields either present or absent. -/
structure PkgInfo : Type where
  scripts : Option (List (String × String))
  dependencies : Option (List (String × String))
  devDependencies : Option (List (String × String))

/-- `extract_package_json_info` (lines 65–72), over the parse outcome of the
file's bytes instead of a `Path`.  On success, `model_dump(exclude_none=True)`
returns all three fields (they are dicts, never `None`); on any read, parse or
validation failure a warning is printed (the `Bool` component) and the empty
dict is returned. -/
def extract_package_json_info (content : Option Json) : PkgInfo × Bool :=
  match content.bind PackageJson.model_validate with
  | some pkg => (⟨some pkg.scripts, some pkg.dependencies, some pkg.devDependencies⟩, false)
  | none => (⟨none, none, none⟩, true)

/-- The `FileNode` construction of lines 138–143: manifest info is extracted
exactly when the bare name is `package.json`, and splatted into the node. -/
def makeFileNode (name ruta : String) (content : Option Json) : Node :=
  let info : PkgInfo :=
    if name = "package.json" then (extract_package_json_info content).1
    else ⟨none, none, none⟩
  Node.file ruta info.scripts info.dependencies info.devDependencies

theorem perm_sizeOf_eq {α : Type} [SizeOf α] {l₁ l₂ : List α} (h : l₁.Perm l₂) :
    sizeOf l₁ = sizeOf l₂ := by
  induction h with
  | nil => rfl
  | cons x _ ih => simp only [List.cons.sizeOf_spec]; omega
  | swap x y l => simp only [List.cons.sizeOf_spec]; omega
  | trans _ _ ih₁ ih₂ => omega

theorem sizeOf_insertionSort (r : String × FS → String × FS → Prop) [DecidableRel r]
    (l : List (String × FS)) : sizeOf (List.insertionSort r l) = sizeOf l :=
  perm_sizeOf_eq (List.perm_insertionSort r l)

theorem sizeOf_sortItems (l : List (String × FS)) : sizeOf (sortItems l) = sizeOf l :=
  sizeOf_insertionSort _ l

mutual

/-- `build_tree` (lines 94–146).  `rel` is the already-computed
`relative_str` for `current` (the source recomputes it from the `Path`; the
scan root passes `"."`).  The `rich_parent` argument and the unused
`flag_discard_files` assignment of line 126 are presentation-only and map to
nothing.  The function is only ever invoked on directories; the `FS.file`
case is unreachable (`iterdir` children recurse through `buildChildren`). -/
def build_tree (f : Filters) (rel : String) (fs : FS) : Node :=
  match fs with
  | .file _ => Node.file rel none none none
  | .dir entries =>
      if f.discard_all_in.contains rel then Node.dir rel []
      else Node.dir rel (buildChildren f rel (sortItems entries))
termination_by sizeOf fs
decreasing_by
  all_goals simp_wf
  all_goals rw [sizeOf_sortItems]
  all_goals omega

/-- The `for item in items` loop of lines 113–145, over the sorted entries of
the current directory, whose `relative_str` is `rel`. -/
def buildChildren (f : Filters) (rel : String) (l : List (String × FS)) :
    List (String × Node) :=
  match l with
  | [] => []
  | (name, entry) :: rest =>
      if f.ignore.contains name then buildChildren f rel rest
      else if entry.isFile && f.discard_files.contains name then buildChildren f rel rest
      else
        match entry with
        | .dir sub =>
            (name, build_tree f (relJoin rel name) (FS.dir sub)) :: buildChildren f rel rest
        | .file c =>
            if f.discard_files_in.any (fun df => strStartsWith (relJoin rel name) df) then
              buildChildren f rel rest
            else
              (name, makeFileNode name (relJoin rel name) c) :: buildChildren f rel rest
termination_by sizeOf l
decreasing_by
  all_goals simp_wf <;> omega

end

/-- `root.is_dir()` over a possibly-missing path (`none` = the resolved path
does not exist). -/
def is_dir (root : Option FS) : Bool :=
  match root with
  | some (.dir _) => true
  | _ => false

/-- The scanning core of `main` (lines 174–189): abort with exit code 1 when
the resolved root is not an existing directory, otherwise build the tree and
produce the single-entry top-level mapping `{root.name: tree}`. -/
def main' (root : Option FS) (rootName : String) (f : Filters) :
    Except Nat (String × Node) :=
  if is_dir root then
    match root with
    | some fs => Except.ok (rootName, build_tree f "." fs)
    | none => Except.error 1
  else Except.error 1

/-! ### Serialization (lines 202–206): `json.dumps(structure, default=dict)`

`default=dict` turns each pydantic node into its field dictionary, `None`
fields serializing as JSON `null`.  `nodeToJson` produces the JSON value the
written document parses back to (text encoding/decoding is the identity on
JSON values). -/

/-- An optional manifest dict as it serializes: `null` when absent. -/
def optDictJson : Option (List (String × String)) → Json
  | none => Json.null
  | some m => Json.obj (m.map (fun kv => (kv.1, Json.str kv.2)))

mutual

/-- Serializes a node the way `json.dumps(…, default=dict)` renders the
pydantic models: all declared fields, in declaration order
(lines 37–43 and 46–50). -/
def nodeToJson : Node → Json
  | .file p s d dd =>
      Json.obj [("type", Json.str "file"), ("path", Json.str p),
        ("descripcion", Json.str ""), ("scripts", optDictJson s),
        ("dependencies", optDictJson d), ("devDependencies", optDictJson dd)]
  | .dir p ch =>
      Json.obj [("type", Json.str "directory"), ("path", Json.str p),
        ("descripcion", Json.str ""), ("children", Json.obj (childrenToJson ch))]
termination_by n => sizeOf n

/-- Serializes a `children` dict, name by name. -/
def childrenToJson : List (String × Node) → List (String × Json)
  | [] => []
  | (n, c) :: rest => (n, nodeToJson c) :: childrenToJson rest
termination_by l => sizeOf l

end

/-- Reads a named field of a decoded JSON object (`none` on non-objects). -/
def jsonField (j : Json) (k : String) : Option Json :=
  match j with
  | .obj fields => getField fields k
  | _ => none

/-- The child names of a decoded node: the keys of its `children` object. -/
def jsonChildNames (j : Json) : Option (List String) :=
  match jsonField j "children" with
  | some (.obj fields) => some (fields.map (fun kv => kv.1))
  | _ => none

/-! ### Observable invariants of the produced tree -/

/-- The sort-order invariant: in every directory's children, directory nodes
precede file nodes and, within each group, entries are in case-insensitive
name order — exactly: the children are pairwise ordered by the key
`(isFile, name.lower())`. -/
inductive SortedTree : Node → Prop where
  | file : ∀ p s d dd, SortedTree (Node.file p s d dd)
  | dir : ∀ p ch, ch.Pairwise (fun a b => childLeB a b = true) →
      (∀ x ∈ ch, SortedTree x.2) → SortedTree (Node.dir p ch)

/-- No entry whose bare name is in `ig` appears anywhere in the tree. -/
inductive NoIgnored (ig : List String) : Node → Prop where
  | file : ∀ p s d dd, NoIgnored ig (Node.file p s d dd)
  | dir : ∀ p ch, (∀ x ∈ ch, ig.contains x.1 = false) →
      (∀ x ∈ ch, NoIgnored ig x.2) → NoIgnored ig (Node.dir p ch)

/-- Every file node has either all three manifest fields present or all three
absent. -/
inductive FieldsInv : Node → Prop where
  | fileSome : ∀ p s d dd, FieldsInv (Node.file p (some s) (some d) (some dd))
  | fileNone : ∀ p, FieldsInv (Node.file p none none none)
  | dir : ∀ p ch, (∀ x ∈ ch, FieldsInv x.2) → FieldsInv (Node.dir p ch)

mutual

/-- Every node's `path` is `rel` extended by its chain of entry names, and
that chain leads to an actual entry of the scanned filesystem: the node's
`path`, joined with the scan root, identifies the entry it was built from. -/
inductive PathSpec : String → FS → Node → Prop where
  | file : ∀ rel c s d dd, PathSpec rel (FS.file c) (Node.file rel s d dd)
  | dir : ∀ rel entries ch, PathChildren rel entries ch →
      PathSpec rel (FS.dir entries) (Node.dir rel ch)

/-- Each produced child is named after an actual entry of the directory and
satisfies `PathSpec` at the extended relative path. -/
inductive PathChildren : String → List (String × FS) → List (String × Node) → Prop where
  | nil : ∀ rel entries, PathChildren rel entries []
  | cons : ∀ rel entries n e c ch, (n, e) ∈ entries →
      PathSpec (relJoin rel n) e c → PathChildren rel entries ch →
      PathChildren rel entries ((n, c) :: ch)

end

/-- A path string is relative (does not start with `/`). -/
def noAbs (p : String) : Bool := decide (p.data.head? ≠ some '/')

/-- A path string is forward-slash normalized (contains no backslash). -/
def noBackslash (p : String) : Bool := decide ('\x5c' ∉ p.data)

/-- A well-formed filesystem entry name: nonempty, not `.`, and containing
neither a slash nor a backslash (what `iterdir` can return on any platform,
except that POSIX also permits backslashes in names). -/
def nameOk (n : String) : Bool :=
  decide (n ≠ "" ∧ n ≠ "." ∧ '/' ∉ n.data ∧ '\x5c' ∉ n.data)

/-- A well-formed relative path string: relative, forward-slash only,
nonempty. -/
def relOk (p : String) : Bool := noAbs p && noBackslash p && decide (p ≠ "")

/-- All entry names of the filesystem are well-formed. -/
inductive WFNames : FS → Prop where
  | file : ∀ c, WFNames (FS.file c)
  | dir : ∀ entries, (∀ x ∈ entries, nameOk x.1 = true) →
      (∀ x ∈ entries, WFNames x.2) → WFNames (FS.dir entries)

/-- Every path in the tree is relative and backslash-free. -/
inductive PathStringsOk : Node → Prop where
  | file : ∀ p s d dd, noAbs p = true → noBackslash p = true →
      PathStringsOk (Node.file p s d dd)
  | dir : ∀ p ch, noAbs p = true → noBackslash p = true →
      (∀ x ∈ ch, PathStringsOk x.2) → PathStringsOk (Node.dir p ch)

/-- Round-trip property of the serialized document, at one node: decoding
recovers the same `type`, the same `path`, and (for directories) the same
child names, at this node and recursively below it. -/
inductive RoundTrip : Node → Prop where
  | file : ∀ p s d dd,
      jsonField (nodeToJson (Node.file p s d dd)) "type" = some (Json.str "file") →
      jsonField (nodeToJson (Node.file p s d dd)) "path" = some (Json.str p) →
      RoundTrip (Node.file p s d dd)
  | dir : ∀ p ch,
      jsonField (nodeToJson (Node.dir p ch)) "type" = some (Json.str "directory") →
      jsonField (nodeToJson (Node.dir p ch)) "path" = some (Json.str p) →
      jsonChildNames (nodeToJson (Node.dir p ch)) = some (ch.map (fun kv => kv.1)) →
      (∀ x ∈ ch, RoundTrip x.2) → RoundTrip (Node.dir p ch)

theorem mem_of_mem_sortItems {x : String × FS} {l : List (String × FS)}
    (h : x ∈ sortItems l) : x ∈ l :=
  (List.perm_insertionSort _ l).mem_iff.mp h

theorem sizeOf_snd_lt {n : String} {e : FS} {entries : List (String × FS)}
    (h : (n, e) ∈ entries) : sizeOf e < sizeOf (FS.dir entries) := by
  have h1 := List.sizeOf_lt_of_mem h
  simp only [FS.dir.sizeOf_spec]
  simp only [Prod.mk.sizeOf_spec] at h1
  omega

theorem mem_buildChildren {f : Filters} {rel : String} {l : List (String × FS)}
    {n : String} {c : Node} (h : (n, c) ∈ buildChildren f rel l) :
    ∃ e : FS, (n, e) ∈ l ∧ f.ignore.contains n = false ∧
      ((∃ sub, e = FS.dir sub ∧ c = build_tree f (relJoin rel n) (FS.dir sub)) ∨
       (∃ cc, e = FS.file cc ∧ f.discard_files.contains n = false ∧
          (f.discard_files_in.any (fun df => strStartsWith (relJoin rel n) df)) = false ∧
          c = makeFileNode n (relJoin rel n) cc)) := by
  induction l with
  | nil => simp [buildChildren] at h
  | cons hd rest ih =>
    obtain ⟨name, entry⟩ := hd
    rw [buildChildren.eq_def] at h
    simp only [] at h
    by_cases hig : f.ignore.contains name = true
    · simp only [hig, if_true] at h
      obtain ⟨e, he, h1, h2⟩ := ih h
      exact ⟨e, List.mem_cons_of_mem _ he, h1, h2⟩
    · simp only [Bool.not_eq_true] at hig
      simp only [hig, Bool.false_eq_true, if_false] at h
      cases entry with
      | dir sub =>
        simp only [FS.isFile, Bool.false_and, Bool.false_eq_true, if_false] at h
        rcases List.mem_cons.mp h with heq | htail
        · have h1 : n = name := congrArg Prod.fst heq
          have h2 : c = build_tree f (relJoin rel name) (FS.dir sub) := congrArg Prod.snd heq
          subst h1
          exact ⟨FS.dir sub, List.mem_cons_self _ _, hig, Or.inl ⟨sub, rfl, h2⟩⟩
        · obtain ⟨e, he, h1, h2⟩ := ih htail
          exact ⟨e, List.mem_cons_of_mem _ he, h1, h2⟩
      | file cc =>
        simp only [FS.isFile, Bool.true_and] at h
        by_cases hdf : f.discard_files.contains name = true
        · simp only [hdf, if_true] at h
          obtain ⟨e, he, h1, h2⟩ := ih h
          exact ⟨e, List.mem_cons_of_mem _ he, h1, h2⟩
        · simp only [Bool.not_eq_true] at hdf
          simp only [hdf, Bool.false_eq_true, if_false] at h
          by_cases hin : (f.discard_files_in.any (fun df => strStartsWith (relJoin rel name) df)) = true
          · simp only [hin, if_true] at h
            obtain ⟨e, he, h1, h2⟩ := ih h
            exact ⟨e, List.mem_cons_of_mem _ he, h1, h2⟩
          · simp only [Bool.not_eq_true] at hin
            simp only [hin, Bool.false_eq_true, if_false] at h
            rcases List.mem_cons.mp h with heq | htail
            · have h1 : n = name := congrArg Prod.fst heq
              have h2 : c = makeFileNode name (relJoin rel name) cc := congrArg Prod.snd heq
              subst h1
              exact ⟨FS.file cc, List.mem_cons_self _ _, hig, Or.inr ⟨cc, rfl, hdf, hin, h2⟩⟩
            · obtain ⟨e, he, h1, h2⟩ := ih htail
              exact ⟨e, List.mem_cons_of_mem _ he, h1, h2⟩

theorem charListLe_total : ∀ a b : List Char, charListLe a b = true ∨ charListLe b a = true := by
  intro a
  induction a with
  | nil => intro b; left; rfl
  | cons x xs ih =>
    intro b
    cases b with
    | nil => right; rfl
    | cons y ys =>
      by_cases hxy : x < y
      · left; simp [charListLe, hxy]
      · by_cases hyx : y < x
        · right; simp [charListLe, hyx]
        · rcases ih ys with h | h
          · left; simp [charListLe, hxy, hyx, h]
          · right; simp [charListLe, hxy, hyx, h]

theorem charListLe_trans : ∀ a b c : List Char, charListLe a b = true →
    charListLe b c = true → charListLe a c = true := by
  intro a
  induction a with
  | nil => intro b c _ _; rfl
  | cons x xs ih =>
    intro b c hab hbc
    cases b with
    | nil => simp [charListLe] at hab
    | cons y ys =>
      cases c with
      | nil => simp [charListLe] at hbc
      | cons z zs =>
        have hab2 : x < y ∨ (x = y ∧ charListLe xs ys = true) := by
          by_cases hxy : x < y
          · exact Or.inl hxy
          · by_cases hyx : y < x
            · simp [charListLe, hxy, hyx] at hab
            · exact Or.inr ⟨le_antisymm (not_lt.mp hyx) (not_lt.mp hxy),
                by simpa [charListLe, hxy, hyx] using hab⟩
        have hbc2 : y < z ∨ (y = z ∧ charListLe ys zs = true) := by
          by_cases hyz : y < z
          · exact Or.inl hyz
          · by_cases hzy : z < y
            · simp [charListLe, hyz, hzy] at hbc
            · exact Or.inr ⟨le_antisymm (not_lt.mp hzy) (not_lt.mp hyz),
                by simpa [charListLe, hyz, hzy] using hbc⟩
        rcases hab2 with hxy | ⟨rfl, hr1⟩
        · rcases hbc2 with hyz | ⟨rfl, hr2⟩
          · simp [charListLe, lt_trans hxy hyz]
          · simp [charListLe, hxy]
        · rcases hbc2 with hyz | ⟨rfl, hr2⟩
          · simp [charListLe, hyz]
          · simp [charListLe, lt_irrefl, ih ys zs hr1 hr2]

theorem strLe_total (a b : String) : strLe a b = true ∨ strLe b a = true :=
  charListLe_total a.data b.data

theorem strLe_trans {a b c : String} (h1 : strLe a b = true) (h2 : strLe b c = true) :
    strLe a c = true :=
  charListLe_trans a.data b.data c.data h1 h2

theorem keyLe_total : ∀ a b : Bool × String, keyLe a b = true ∨ keyLe b a = true := by
  rintro ⟨fa, sa⟩ ⟨fb, sb⟩
  cases fa <;> cases fb <;> simp [keyLe] <;> exact strLe_total sa sb

theorem keyLe_trans : ∀ a b c : Bool × String, keyLe a b = true → keyLe b c = true →
    keyLe a c = true := by
  rintro ⟨fa, sa⟩ ⟨fb, sb⟩ ⟨fc, sc⟩ hab hbc
  cases fa <;> cases fb <;> cases fc <;> simp [keyLe] at hab hbc ⊢ <;> exact strLe_trans hab hbc

instance : IsTotal (String × FS) (fun a b => entryLeB a b = true) :=
  ⟨fun a b => keyLe_total (entryKey a) (entryKey b)⟩

instance : IsTrans (String × FS) (fun a b => entryLeB a b = true) :=
  ⟨fun _ _ _ hab hbc => keyLe_trans _ _ _ hab hbc⟩

theorem sortItems_pairwise (l : List (String × FS)) :
    (sortItems l).Pairwise (fun a b => entryLeB a b = true) :=
  List.sorted_insertionSort _ l

theorem build_tree_dir_shape (f : Filters) (rel : String) (entries : List (String × FS)) :
    build_tree f rel (FS.dir entries) =
      Node.dir rel (if f.discard_all_in.contains rel then []
                    else buildChildren f rel (sortItems entries)) := by
  rw [build_tree.eq_def]
  by_cases h : f.discard_all_in.contains rel = true
  · simp only [h, if_true]
  · simp only [Bool.not_eq_true] at h
    simp only [h, Bool.false_eq_true, if_false]

theorem makeFileNode_shape (n r : String) (c : Option Json) :
    ∃ s d dd, makeFileNode n r c = Node.file r s d dd := ⟨_, _, _, rfl⟩

theorem childKey_buildChildren {f : Filters} {rel : String} {l : List (String × FS)}
    {x : String × Node} (hx : x ∈ buildChildren f rel l) :
    ∃ e, (x.1, e) ∈ l ∧ childKey x = entryKey (x.1, e) := by
  obtain ⟨n, c⟩ := x
  obtain ⟨e, he, hig, hbr⟩ := mem_buildChildren hx
  refine ⟨e, he, ?_⟩
  rcases hbr with ⟨sub, rfl, rfl⟩ | ⟨cc, rfl, _, _, rfl⟩
  · rw [build_tree_dir_shape]
    simp [childKey, entryKey, FS.isFile, Node.isFileNode]
  · obtain ⟨s, d, dd, heq⟩ := makeFileNode_shape n (relJoin rel n) cc
    rw [heq]
    simp [childKey, entryKey, FS.isFile, Node.isFileNode]

theorem pairwise_buildChildren {f : Filters} {rel : String} :
    ∀ {l : List (String × FS)}, l.Pairwise (fun a b => entryLeB a b = true) →
    (buildChildren f rel l).Pairwise (fun a b => childLeB a b = true) := by
  intro l
  induction l with
  | nil => intro _; rw [buildChildren.eq_def]; exact List.Pairwise.nil
  | cons hd rest ih =>
    intro hp
    rw [List.pairwise_cons] at hp
    obtain ⟨hhead, htail⟩ := hp
    obtain ⟨name, entry⟩ := hd
    have hkept : ∀ node : Node, childKey (name, node) = entryKey (name, entry) →
        ((name, node) :: buildChildren f rel rest).Pairwise
          (fun a b => childLeB a b = true) := by
      intro node hkey
      rw [List.pairwise_cons]
      refine ⟨?_, ih htail⟩
      intro y hy
      obtain ⟨e, he, hyk⟩ := childKey_buildChildren hy
      have h1 : entryLeB (name, entry) (y.1, e) = true := hhead _ he
      show keyLe (childKey (name, node)) (childKey y) = true
      rw [hkey, hyk]
      exact h1
    rw [buildChildren.eq_def]
    by_cases hig : f.ignore.contains name = true
    · simp only [hig, if_true]; exact ih htail
    · simp only [Bool.not_eq_true] at hig
      simp only [hig, Bool.false_eq_true, if_false]
      cases entry with
      | dir sub =>
        simp only [FS.isFile, Bool.false_and, Bool.false_eq_true, if_false]
        refine hkept _ ?_
        rw [build_tree_dir_shape]
        simp [childKey, entryKey, FS.isFile, Node.isFileNode]
      | file cc =>
        simp only [FS.isFile, Bool.true_and]
        by_cases hdf : f.discard_files.contains name = true
        · simp only [hdf, if_true]; exact ih htail
        · simp only [Bool.not_eq_true] at hdf
          simp only [hdf, Bool.false_eq_true, if_false]
          by_cases hin : (f.discard_files_in.any
              (fun df => strStartsWith (relJoin rel name) df)) = true
          · simp only [hin, if_true]; exact ih htail
          · simp only [Bool.not_eq_true] at hin
            simp only [hin, Bool.false_eq_true, if_false]
            refine hkept _ ?_
            obtain ⟨s, d, dd, heq⟩ := makeFileNode_shape name (relJoin rel name) cc
            rw [heq]
            simp [childKey, entryKey, FS.isFile, Node.isFileNode]

theorem sortedTree_build (f : Filters) :
    ∀ (k : Nat) (fs : FS), sizeOf fs ≤ k → ∀ rel, SortedTree (build_tree f rel fs) := by
  intro k
  induction k with
  | zero =>
    intro fs hle
    exfalso
    cases fs <;> simp only [FS.file.sizeOf_spec, FS.dir.sizeOf_spec] at hle <;> omega
  | succ k ih =>
    intro fs hle rel
    cases fs with
    | file c => rw [build_tree.eq_def]; exact SortedTree.file ..
    | dir entries =>
      rw [build_tree_dir_shape]
      by_cases hda : f.discard_all_in.contains rel = true
      · simp only [hda, if_true]
        exact SortedTree.dir _ _ List.Pairwise.nil (by simp)
      · simp only [Bool.not_eq_true] at hda
        simp only [hda, Bool.false_eq_true, if_false]
        refine SortedTree.dir _ _ (pairwise_buildChildren (sortItems_pairwise entries)) ?_
        intro x hx
        obtain ⟨n2, c2⟩ := x
        obtain ⟨e, he, hig, hbr⟩ := mem_buildChildren hx
        have hmem : (n2, e) ∈ entries := mem_of_mem_sortItems he
        rcases hbr with ⟨sub, rfl, rfl⟩ | ⟨cc, rfl, _, _, rfl⟩
        · have hlt : sizeOf (FS.dir sub) < sizeOf (FS.dir entries) := sizeOf_snd_lt hmem
          have hk : sizeOf (FS.dir sub) ≤ k := by
            simp only [FS.dir.sizeOf_spec] at hle hlt ⊢; omega
          exact ih _ hk _
        · obtain ⟨s, d, dd, heq⟩ := makeFileNode_shape n2 (relJoin rel n2) cc
          rw [heq]
          exact SortedTree.file ..

theorem noIgnored_build (f : Filters) :
    ∀ (k : Nat) (fs : FS), sizeOf fs ≤ k → ∀ rel, NoIgnored f.ignore (build_tree f rel fs) := by
  intro k
  induction k with
  | zero =>
    intro fs hle
    exfalso
    cases fs <;> simp only [FS.file.sizeOf_spec, FS.dir.sizeOf_spec] at hle <;> omega
  | succ k ih =>
    intro fs hle rel
    cases fs with
    | file c => rw [build_tree.eq_def]; exact NoIgnored.file ..
    | dir entries =>
      rw [build_tree_dir_shape]
      by_cases hda : f.discard_all_in.contains rel = true
      · simp only [hda, if_true]
        exact NoIgnored.dir _ _ (by simp) (by simp)
      · simp only [Bool.not_eq_true] at hda
        simp only [hda, Bool.false_eq_true, if_false]
        refine NoIgnored.dir _ _ ?_ ?_
        · intro x hx
          obtain ⟨n2, c2⟩ := x
          obtain ⟨e, he, hig, _⟩ := mem_buildChildren hx
          exact hig
        · intro x hx
          obtain ⟨n2, c2⟩ := x
          obtain ⟨e, he, hig, hbr⟩ := mem_buildChildren hx
          have hmem : (n2, e) ∈ entries := mem_of_mem_sortItems he
          rcases hbr with ⟨sub, rfl, rfl⟩ | ⟨cc, rfl, _, _, rfl⟩
          · have hlt : sizeOf (FS.dir sub) < sizeOf (FS.dir entries) := sizeOf_snd_lt hmem
            have hk : sizeOf (FS.dir sub) ≤ k := by
              simp only [FS.dir.sizeOf_spec] at hle hlt ⊢; omega
            exact ih _ hk _
          · obtain ⟨s, d, dd, heq⟩ := makeFileNode_shape n2 (relJoin rel n2) cc
            rw [heq]
            exact NoIgnored.file ..

theorem makeFileNode_cases (n r : String) (c : Option Json) :
    makeFileNode n r c = Node.file r none none none ∨
    (n = "package.json" ∧ ∃ pkg, c.bind PackageJson.model_validate = some pkg ∧
      makeFileNode n r c = Node.file r (some pkg.scripts) (some pkg.dependencies)
        (some pkg.devDependencies)) := by
  by_cases hn : n = "package.json"
  · subst hn
    cases hv : c.bind PackageJson.model_validate with
    | none => left; simp [makeFileNode, extract_package_json_info, hv]
    | some pkg =>
      right
      exact ⟨rfl, pkg, rfl, by simp [makeFileNode, extract_package_json_info, hv]⟩
  · left; simp [makeFileNode, hn]

theorem fieldsInv_build (f : Filters) :
    ∀ (k : Nat) (fs : FS), sizeOf fs ≤ k → ∀ rel, FieldsInv (build_tree f rel fs) := by
  intro k
  induction k with
  | zero =>
    intro fs hle
    exfalso
    cases fs <;> simp only [FS.file.sizeOf_spec, FS.dir.sizeOf_spec] at hle <;> omega
  | succ k ih =>
    intro fs hle rel
    cases fs with
    | file c => rw [build_tree.eq_def]; exact FieldsInv.fileNone _
    | dir entries =>
      rw [build_tree_dir_shape]
      by_cases hda : f.discard_all_in.contains rel = true
      · simp only [hda, if_true]
        exact FieldsInv.dir _ _ (by simp)
      · simp only [Bool.not_eq_true] at hda
        simp only [hda, Bool.false_eq_true, if_false]
        refine FieldsInv.dir _ _ ?_
        intro x hx
        obtain ⟨n2, c2⟩ := x
        obtain ⟨e, he, hig, hbr⟩ := mem_buildChildren hx
        have hmem : (n2, e) ∈ entries := mem_of_mem_sortItems he
        rcases hbr with ⟨sub, rfl, rfl⟩ | ⟨cc, rfl, _, _, rfl⟩
        · have hlt : sizeOf (FS.dir sub) < sizeOf (FS.dir entries) := sizeOf_snd_lt hmem
          have hk : sizeOf (FS.dir sub) ≤ k := by
            simp only [FS.dir.sizeOf_spec] at hle hlt ⊢; omega
          exact ih _ hk _
        · rcases makeFileNode_cases n2 (relJoin rel n2) cc with heq | ⟨_, pkg, _, heq⟩
          · rw [heq]; exact FieldsInv.fileNone _
          · rw [heq]; exact FieldsInv.fileSome ..

theorem pathChildren_of_forall {rel : String} {entries : List (String × FS)} :
    ∀ ch : List (String × Node),
    (∀ n c, (n, c) ∈ ch → ∃ e, (n, e) ∈ entries ∧ PathSpec (relJoin rel n) e c) →
    PathChildren rel entries ch := by
  intro ch
  induction ch with
  | nil => intro _; exact PathChildren.nil _ _
  | cons hd tl ih =>
    intro h
    obtain ⟨n, c⟩ := hd
    obtain ⟨e, he, hp⟩ := h n c (List.mem_cons_self _ _)
    exact PathChildren.cons _ _ _ _ _ _ he hp
      (ih (fun n2 c2 hm => h n2 c2 (List.mem_cons_of_mem _ hm)))

theorem pathSpec_build (f : Filters) :
    ∀ (k : Nat) (fs : FS), sizeOf fs ≤ k → ∀ rel, PathSpec rel fs (build_tree f rel fs) := by
  intro k
  induction k with
  | zero =>
    intro fs hle
    exfalso
    cases fs <;> simp only [FS.file.sizeOf_spec, FS.dir.sizeOf_spec] at hle <;> omega
  | succ k ih =>
    intro fs hle rel
    cases fs with
    | file c => rw [build_tree.eq_def]; exact PathSpec.file ..
    | dir entries =>
      rw [build_tree_dir_shape]
      refine PathSpec.dir _ _ _ (pathChildren_of_forall _ ?_)
      intro n c hx
      have hx2 : (n, c) ∈ buildChildren f rel (sortItems entries) := by
        by_cases hda : f.discard_all_in.contains rel = true
        · simp only [hda, if_true] at hx; simp at hx
        · simp only [Bool.not_eq_true] at hda
          simpa only [hda, Bool.false_eq_true, if_false] using hx
      obtain ⟨e, he, hig, hbr⟩ := mem_buildChildren hx2
      have hmem : (n, e) ∈ entries := mem_of_mem_sortItems he
      refine ⟨e, hmem, ?_⟩
      rcases hbr with ⟨sub, rfl, rfl⟩ | ⟨cc, rfl, _, _, rfl⟩
      · have hlt : sizeOf (FS.dir sub) < sizeOf (FS.dir entries) := sizeOf_snd_lt hmem
        have hk : sizeOf (FS.dir sub) ≤ k := by
          simp only [FS.dir.sizeOf_spec] at hle hlt ⊢; omega
        exact ih _ hk _
      · obtain ⟨s, d, dd, heq⟩ := makeFileNode_shape n (relJoin rel n) cc
        rw [heq]
        exact PathSpec.file ..

theorem map_norm_eq_self : ∀ l : List Char, '\x5c' ∉ l →
    l.map (fun c => if c = '\x5c' then '/' else c) = l := by
  intro l hl
  induction l with
  | nil => rfl
  | cons a as ih =>
    simp only [List.mem_cons, not_or] at hl
    obtain ⟨h1, h2⟩ := hl
    have ha : a ≠ '\x5c' := fun heq => h1 heq.symm
    simp [ha, ih h2]

theorem normSlash_eq {n : String} (h : '\x5c' ∉ n.data) : normSlash n = n := by
  show String.mk (n.data.map _) = n
  rw [map_norm_eq_self n.data h]

theorem data_append (a b : String) : (a ++ b).data = a.data ++ b.data := rfl

theorem string_eq_empty_iff {s : String} : s = "" ↔ s.data = [] := by
  cases s with
  | mk d =>
    constructor
    · intro h
      exact congrArg String.data h
    · intro h
      exact congrArg String.mk h

theorem head_ne_of_not_mem {c : Char} {l : List Char} (h : c ∉ l) : l.head? ≠ some c := by
  cases l with
  | nil => simp
  | cons a as =>
    simp only [List.head?_cons, ne_eq, Option.some.injEq]
    intro he
    exact h (he ▸ List.mem_cons_self a as)

theorem relOk_dot : relOk "." = true := by decide

theorem relOk_relJoin {rel n : String} (hrel : relOk rel = true) (hn : nameOk n = true) :
    relOk (relJoin rel n) = true := by
  simp only [relOk, noAbs, noBackslash, nameOk, Bool.and_eq_true, decide_eq_true_eq] at hrel hn ⊢
  obtain ⟨⟨habs, hbs⟩, hne⟩ := hrel
  obtain ⟨hn1, hn2, hn3, hn4⟩ := hn
  rw [relJoin]
  by_cases hdot : rel = "."
  · rw [if_pos hdot, normSlash_eq hn4]
    refine ⟨⟨head_ne_of_not_mem hn3, hn4⟩, hn1⟩
  · rw [if_neg hdot, normSlash_eq hn4]
    have hrd : rel.data ≠ [] := fun hnil => hne (string_eq_empty_iff.mpr hnil)
    cases hd : rel.data with
    | nil => exact absurd hd hrd
    | cons c cs =>
      have hdata : (rel ++ "/" ++ n).data = c :: (cs ++ '/' :: n.data) := by
        rw [data_append, data_append, hd]
        simp
      constructor
      constructor
      · rw [hdata]
        simp only [List.head?_cons, ne_eq, Option.some.injEq]
        intro he
        exact habs (by rw [hd]; simp [he])
      · rw [hdata]
        simp only [List.mem_cons, List.mem_append, not_or]
        refine ⟨?_, ?_, ?_, hn4⟩
        · intro he
          exact hbs (by rw [hd]; exact List.mem_cons.mpr (Or.inl he))
        · intro he
          exact hbs (by rw [hd]; exact List.mem_cons.mpr (Or.inr he))
        · decide
      · intro he
        have := string_eq_empty_iff.mp he
        rw [hdata] at this
        exact List.cons_ne_nil _ _ this

theorem noAbs_of_relOk {p : String} (h : relOk p = true) : noAbs p = true := by
  simp only [relOk, Bool.and_eq_true] at h
  exact h.1.1

theorem noBackslash_of_relOk {p : String} (h : relOk p = true) : noBackslash p = true := by
  simp only [relOk, Bool.and_eq_true] at h
  exact h.1.2

theorem pathStringsOk_build (f : Filters) :
    ∀ (k : Nat) (fs : FS), sizeOf fs ≤ k → ∀ rel, WFNames fs → relOk rel = true →
      PathStringsOk (build_tree f rel fs) := by
  intro k
  induction k with
  | zero =>
    intro fs hle
    exfalso
    cases fs <;> simp only [FS.file.sizeOf_spec, FS.dir.sizeOf_spec] at hle <;> omega
  | succ k ih =>
    intro fs hle rel hwf hrel
    cases fs with
    | file c =>
      rw [build_tree.eq_def]
      exact PathStringsOk.file _ _ _ _ (noAbs_of_relOk hrel) (noBackslash_of_relOk hrel)
    | dir entries =>
      rw [build_tree_dir_shape]
      cases hwf with
      | dir _ hnames hsub =>
        by_cases hda : f.discard_all_in.contains rel = true
        · simp only [hda, if_true]
          exact PathStringsOk.dir _ _ (noAbs_of_relOk hrel) (noBackslash_of_relOk hrel) (by simp)
        · simp only [Bool.not_eq_true] at hda
          simp only [hda, Bool.false_eq_true, if_false]
          refine PathStringsOk.dir _ _ (noAbs_of_relOk hrel) (noBackslash_of_relOk hrel) ?_
          intro x hx
          obtain ⟨n2, c2⟩ := x
          obtain ⟨e, he, hig, hbr⟩ := mem_buildChildren hx
          have hmem : (n2, e) ∈ entries := mem_of_mem_sortItems he
          have hname : nameOk n2 = true := hnames _ hmem
          have hrel2 : relOk (relJoin rel n2) = true := relOk_relJoin hrel hname
          rcases hbr with ⟨sub, rfl, rfl⟩ | ⟨cc, rfl, _, _, rfl⟩
          · have hlt : sizeOf (FS.dir sub) < sizeOf (FS.dir entries) := sizeOf_snd_lt hmem
            have hk : sizeOf (FS.dir sub) ≤ k := by
              simp only [FS.dir.sizeOf_spec] at hle hlt ⊢; omega
            exact ih _ hk _ (hsub _ hmem) hrel2
          · obtain ⟨s, d, dd, heq⟩ := makeFileNode_shape n2 (relJoin rel n2) cc
            rw [heq]
            exact PathStringsOk.file _ _ _ _ (noAbs_of_relOk hrel2) (noBackslash_of_relOk hrel2)

theorem childrenToJson_names : ∀ ch : List (String × Node),
    (childrenToJson ch).map (fun kv => kv.1) = ch.map (fun kv => kv.1) := by
  intro ch
  induction ch with
  | nil => rw [childrenToJson.eq_def]; rfl
  | cons hd tl ih =>
    obtain ⟨n, c⟩ := hd
    rw [childrenToJson.eq_def]
    simp only [List.map_cons, ih]

theorem sizeOf_node_snd_lt {p n : String} {c : Node} {ch : List (String × Node)}
    (h : (n, c) ∈ ch) : sizeOf c < sizeOf (Node.dir p ch) := by
  have h1 := List.sizeOf_lt_of_mem h
  simp only [Node.dir.sizeOf_spec]
  simp only [Prod.mk.sizeOf_spec] at h1
  omega

theorem roundTrip_all : ∀ (k : Nat) (n : Node), sizeOf n ≤ k → RoundTrip n := by
  intro k
  induction k with
  | zero =>
    intro n hle
    exfalso
    cases n <;> simp only [Node.file.sizeOf_spec, Node.dir.sizeOf_spec] at hle <;> omega
  | succ k ih =>
    intro n hle
    cases n with
    | file p s d dd =>
      refine RoundTrip.file p s d dd ?_ ?_
      · rw [nodeToJson.eq_def]
        simp [jsonField, getField]
      · rw [nodeToJson.eq_def]
        simp [jsonField, getField]
    | dir p ch =>
      refine RoundTrip.dir p ch ?_ ?_ ?_ ?_
      · rw [nodeToJson.eq_def]
        simp [jsonField, getField]
      · rw [nodeToJson.eq_def]
        simp [jsonField, getField]
      · rw [nodeToJson.eq_def]
        simp [jsonChildNames, jsonField, getField, childrenToJson_names]
      · intro x hx
        obtain ⟨n2, c2⟩ := x
        have hlt : sizeOf c2 < sizeOf (Node.dir p ch) := sizeOf_node_snd_lt hx
        have hk : sizeOf c2 ≤ k := by
          simp only [Node.dir.sizeOf_spec] at hle hlt ⊢; omega
        exact ih _ hk

/-- C3: in every directory node produced by `build_tree`, the children are
pairwise ordered by the key `(isFile, name.lower())`: all directory-typed
children precede all file-typed children (`False < True` on the first
component), and within each group entries are in case-insensitive name
order. -/
theorem c3_children_sorted (f : Filters) (rel : String) (fs : FS) :
    SortedTree (build_tree f rel fs) :=
  sortedTree_build f (sizeOf fs) fs le_rfl rel

/-- C4: an entry whose bare name is in the `ignore` set is skipped entirely —
the loop equation shows no node is produced and no descent happens for it —
and consequently no entry named in `ignore` appears anywhere in any tree
`build_tree` produces. -/
theorem c4_ignore_excluded (f : Filters) :
    (∀ rel name e rest, f.ignore.contains name = true →
       buildChildren f rel ((name, e) :: rest) = buildChildren f rel rest) ∧
    (∀ rel fs, NoIgnored f.ignore (build_tree f rel fs)) := by
  constructor
  · intro rel name e rest h
    rw [buildChildren.eq_def]
    simp only [h, if_true]
  · intro rel fs
    exact noIgnored_build f (sizeOf fs) fs le_rfl rel

theorem c4_witness :
    (["node_modules"] : List String).contains "node_modules" = true ∧
    buildChildren ⟨["node_modules"], [], [], []⟩ "."
        [("node_modules", FS.dir [("index.js", FS.file none)])] =
      buildChildren ⟨["node_modules"], [], [], []⟩ "." [] ∧
    NoIgnored ["node_modules"]
      (build_tree ⟨["node_modules"], [], [], []⟩ "."
        (FS.dir [("node_modules", FS.dir [("index.js", FS.file none)])])) :=
  ⟨by decide,
   (c4_ignore_excluded ⟨["node_modules"], [], [], []⟩).1 "." "node_modules" _ [] (by decide),
   (c4_ignore_excluded ⟨["node_modules"], [], [], []⟩).2 "."
     (FS.dir [("node_modules", FS.dir [("index.js", FS.file none)])])⟩

/-- C5: a directory whose relative path is exactly in `discard_all_in` is
returned as a node with empty children, with no descent (first conjunct); it
is still recorded in its parent's children (second conjunct); and the test is
never applied to files: a file entry at such a path, if not otherwise
filtered, still produces its file node normally (third conjunct). -/
theorem c5_discard_all_dirs_only (f : Filters) :
    (∀ rel entries, f.discard_all_in.contains rel = true →
       build_tree f rel (FS.dir entries) = Node.dir rel []) ∧
    (∀ rel name sub rest, f.ignore.contains name = false →
       f.discard_all_in.contains (relJoin rel name) = true →
       buildChildren f rel ((name, FS.dir sub) :: rest) =
         (name, Node.dir (relJoin rel name) []) :: buildChildren f rel rest) ∧
    (∀ rel name c rest, f.ignore.contains name = false →
       f.discard_files.contains name = false →
       f.discard_files_in.any (fun df => strStartsWith (relJoin rel name) df) = false →
       buildChildren f rel ((name, FS.file c) :: rest) =
         (name, makeFileNode name (relJoin rel name) c) :: buildChildren f rel rest) := by
  refine ⟨?_, ?_, ?_⟩
  · intro rel entries h
    rw [build_tree_dir_shape]
    simp only [h, if_true]
  · intro rel name sub rest h1 h2
    rw [buildChildren.eq_def]
    simp only [h1, Bool.false_eq_true, if_false, FS.isFile, Bool.false_and]
    rw [build_tree_dir_shape]
    simp only [h2, if_true]
  · intro rel name c rest h1 h2 h3
    rw [buildChildren.eq_def]
    simp only [h1, Bool.false_eq_true, if_false, FS.isFile, Bool.true_and, h2, h3]

theorem c5_witness :
    build_tree ⟨[], [], ["vendor"], []⟩ "vendor" (FS.dir [("big.bin", FS.file none)]) =
      Node.dir "vendor" [] ∧
    buildChildren ⟨[], [], ["vendor"], []⟩ "."
        [("vendor", FS.dir [("big.bin", FS.file none)])] =
      ("vendor", Node.dir "vendor" []) :: buildChildren ⟨[], [], ["vendor"], []⟩ "." [] ∧
    buildChildren ⟨[], [], ["a.txt"], []⟩ "." [("a.txt", FS.file none)] =
      ("a.txt", makeFileNode "a.txt" "a.txt" none)
        :: buildChildren ⟨[], [], ["a.txt"], []⟩ "." [] :=
  ⟨(c5_discard_all_dirs_only _).1 "vendor" _ (by decide),
   by
    have h := (c5_discard_all_dirs_only ⟨[], [], ["vendor"], []⟩).2.1 "."
      "vendor" [("big.bin", FS.file none)] [] (by decide) (by simp [relJoin, normSlash])
    simpa [relJoin, normSlash] using h,
   by
    have h := (c5_discard_all_dirs_only ⟨[], [], ["a.txt"], []⟩).2.2 "."
      "a.txt" none [] (by decide) (by decide) (by simp [relJoin, normSlash, strStartsWith])
    simpa [relJoin, normSlash] using h⟩

/-- C6: a file entry whose relative path starts with a `discard_files_in`
element, or whose bare name is in `discard_files`, contributes no file node:
the loop passes over it, at any depth (the statement quantifies over every
current relative path `rel`). -/
theorem c6_file_filters (f : Filters) (rel name : String) (c : Option Json)
    (rest : List (String × FS))
    (h : f.discard_files_in.any (fun df => strStartsWith (relJoin rel name) df) = true ∨
         f.discard_files.contains name = true) :
    buildChildren f rel ((name, FS.file c) :: rest) = buildChildren f rel rest := by
  rw [buildChildren.eq_def]
  by_cases hig : f.ignore.contains name = true
  · simp only [hig, if_true]
  · simp only [Bool.not_eq_true] at hig
    simp only [hig, Bool.false_eq_true, if_false, FS.isFile, Bool.true_and]
    by_cases hdf : f.discard_files.contains name = true
    · simp only [hdf, if_true]
    · simp only [Bool.not_eq_true] at hdf
      rcases h with h | h
      · simp only [hdf, Bool.false_eq_true, if_false, h, if_true]
      · rw [h] at hdf; exact absurd hdf (by decide)

theorem c6_witness :
    buildChildren ⟨[], ["src"], [], []⟩ "src" [("a.txt", FS.file none)] =
      buildChildren ⟨[], ["src"], [], []⟩ "src" [] ∧
    buildChildren ⟨[], [], [], [".DS_Store"]⟩ "." [(".DS_Store", FS.file none)] =
      buildChildren ⟨[], [], [], [".DS_Store"]⟩ "." [] :=
  ⟨c6_file_filters _ "src" "a.txt" none []
      (Or.inl (by simp [relJoin, normSlash, strStartsWith])),
   c6_file_filters _ "." ".DS_Store" none [] (Or.inr (by decide))⟩

/-- C1 counterexample: a `package.json` whose parsed content is exactly
`{"scripts": {"build": "x"}}` yields a file node whose `dependencies` and
`devDependencies` fields are PRESENT (as empty mappings), contradicting the
claim that they are absent: `PackageJson` defaults them to `{}` (never
`None`), so `model_dump(exclude_none=True)` always emits all three keys. -/
theorem c1_counterexample :
    (makeFileNode "package.json" "package.json"
      (some (Json.obj [("scripts", Json.obj [("build", Json.str "x")])]))).scriptsOf
        = some [("build", "x")] ∧
    (makeFileNode "package.json" "package.json"
      (some (Json.obj [("scripts", Json.obj [("build", Json.str "x")])]))).depsOf
        = some [] ∧
    ¬ ((makeFileNode "package.json" "package.json"
      (some (Json.obj [("scripts", Json.obj [("build", Json.str "x")])]))).depsOf
        = none ∧
       (makeFileNode "package.json" "package.json"
      (some (Json.obj [("scripts", Json.obj [("build", Json.str "x")])]))).devDepsOf
        = none) := by
  refine ⟨?_, ?_, ?_⟩ <;>
    simp [makeFileNode, extract_package_json_info, PackageJson.model_validate, getField,
      validateStrDict, validateStrPairs, Node.scriptsOf, Node.depsOf, Node.devDepsOf]

/-- C1 (amended): a file entry named `package.json` whose parsed content has
exactly the one field `scripts` (validating as a string dict `m`) produces a
file node with `scripts = m` and with `dependencies` and `devDependencies`
present as EMPTY mappings (not absent). -/
theorem c1_package_json_scripts_only (ruta : String) (fields : List (String × Json))
    (m : List (String × String)) (h : validateStrDict (Json.obj fields) = some m) :
    makeFileNode "package.json" ruta (some (Json.obj [("scripts", Json.obj fields)])) =
      Node.file ruta (some m) (some []) (some []) := by
  simp [makeFileNode, extract_package_json_info, PackageJson.model_validate, getField, h]

theorem c1_witness :
    validateStrDict (Json.obj [("build", Json.str "x")]) = some [("build", "x")] ∧
    makeFileNode "package.json" "pkg/package.json"
        (some (Json.obj [("scripts", Json.obj [("build", Json.str "x")])])) =
      Node.file "pkg/package.json" (some [("build", "x")]) (some []) (some []) :=
  ⟨by simp [validateStrDict, validateStrPairs],
   c1_package_json_scripts_only "pkg/package.json" _ _
     (by simp [validateStrDict, validateStrPairs])⟩

/-- C2 counterexample: with `discard_files_in = {"a"}`, the file `ab.txt` at
the root is suppressed by the code (plain `startswith`), although its path
does not begin with `"a"` followed by a path separator — refuting
suppressed-iff-separator-prefix. -/
theorem c2_counterexample :
    ¬ ((buildChildren ⟨[], ["a"], [], []⟩ "." [("ab.txt", FS.file none)] = []) ↔
       ((["a"] : List String).any
          (fun df => strStartsWith (relJoin "." "ab.txt") (df ++ "/")) = true)) := by
  intro h
  have h1 : buildChildren ⟨[], ["a"], [], []⟩ "." [("ab.txt", FS.file none)] = [] := by
    simp [buildChildren, strStartsWith, relJoin, normSlash]
  have h2 := h.mp h1
  simp [strStartsWith, relJoin, normSlash] at h2

/-- C2 (amended): a file entry not filtered by `ignore` or `discard_files` is
suppressed exactly when its relative path starts with some `discard_files_in`
element as a PLAIN string prefix — no path separator is required after the
prefix (so prefix `a` also suppresses a sibling file `ab.txt`), and the test
applies at any depth because the full relative path is tested. -/
theorem c2_discard_files_in_plain (f : Filters) (rel name : String) (c : Option Json)
    (rest : List (String × FS)) (h1 : f.ignore.contains name = false)
    (h2 : f.discard_files.contains name = false) :
    buildChildren f rel ((name, FS.file c) :: rest) =
      if f.discard_files_in.any (fun df => strStartsWith (relJoin rel name) df) then
        buildChildren f rel rest
      else (name, makeFileNode name (relJoin rel name) c) :: buildChildren f rel rest := by
  rw [buildChildren.eq_def]
  simp only [h1, Bool.false_eq_true, if_false, FS.isFile, Bool.true_and, h2]

theorem c2_witness :
    buildChildren ⟨[], ["a"], [], []⟩ "." [("ab.txt", FS.file none)] =
      (if (["a"] : List String).any (fun df => strStartsWith "ab.txt" df) then
        buildChildren ⟨[], ["a"], [], []⟩ "." []
      else ("ab.txt", makeFileNode "ab.txt" "ab.txt" none)
        :: buildChildren ⟨[], ["a"], [], []⟩ "." []) := by
  have h := c2_discard_files_in_plain ⟨[], ["a"], [], []⟩ "." "ab.txt" none []
    (by decide) (by decide)
  simpa [relJoin, normSlash] using h

/-- C7: the root precondition aborts with exit code 1 when the resolved root
is not an existing directory (and `main'` then produces no tree); any
manifest read/parse/validation failure is converted at the point of use into
a single warning, the file node is still created with no manifest fields, the
walk continues with the remaining entries, and a directory root always scans
to normal completion. -/
theorem c7_error_handling :
    (∀ (root : Option FS) (rootName : String) (f : Filters), is_dir root = false →
       main' root rootName f = Except.error 1) ∧
    (∀ c : Option Json, c.bind PackageJson.model_validate = none →
       extract_package_json_info c = (⟨none, none, none⟩, true)) ∧
    (∀ (f : Filters) (rel : String) (c : Option Json) (rest : List (String × FS)),
       f.ignore.contains "package.json" = false →
       f.discard_files.contains "package.json" = false →
       f.discard_files_in.any (fun df => strStartsWith (relJoin rel "package.json") df) = false →
       c.bind PackageJson.model_validate = none →
       buildChildren f rel (("package.json", FS.file c) :: rest) =
         ("package.json", Node.file (relJoin rel "package.json") none none none)
           :: buildChildren f rel rest) ∧
    (∀ (entries : List (String × FS)) (rootName : String) (f : Filters),
       main' (some (FS.dir entries)) rootName f =
         Except.ok (rootName, build_tree f "." (FS.dir entries))) := by
  refine ⟨?_, ?_, ?_, ?_⟩
  · intro root rootName f h
    rw [main'.eq_def]
    simp only [h, Bool.false_eq_true, if_false]
  · intro c h
    rw [extract_package_json_info]
    simp only [h]
  · intro f rel c rest h1 h2 h3 h4
    rw [buildChildren.eq_def]
    simp only [h1, Bool.false_eq_true, if_false, FS.isFile, Bool.true_and, h2, h3,
      makeFileNode, extract_package_json_info, h4, if_true]
  · intro entries rootName f
    rw [main'.eq_def]
    simp [is_dir]

theorem c7_witness :
    main' (some (FS.file none)) "r" ⟨[], [], [], []⟩ = Except.error 1 ∧
    extract_package_json_info (some (Json.num 3)) = (⟨none, none, none⟩, true) ∧
    buildChildren ⟨[], [], [], []⟩ "." [("package.json", FS.file none)] =
      ("package.json", Node.file "package.json" none none none)
        :: buildChildren ⟨[], [], [], []⟩ "." [] ∧
    main' (some (FS.dir [])) "r" ⟨[], [], [], []⟩ =
      Except.ok ("r", build_tree ⟨[], [], [], []⟩ "." (FS.dir [])) :=
  ⟨c7_error_handling.1 _ "r" _ (by decide),
   c7_error_handling.2.1 _ (by simp [PackageJson.model_validate]),
   by
    have h := c7_error_handling.2.2.1 ⟨[], [], [], []⟩ "." none []
      (by decide) (by decide) (by simp [relJoin, normSlash, strStartsWith]) (by simp)
    simpa [relJoin, normSlash] using h,
   c7_error_handling.2.2.2 [] "r" _⟩

/-- C8: encoding any built tree to the JSON document (the top level is the
single-entry mapping from the root name) and decoding it back yields the same
`type` value, the same `path` value, and the same child names, at every
level. -/
theorem c8_roundtrip (f : Filters) (rel : String) (fs : FS) (rootName : String) :
    jsonField (Json.obj [(rootName, nodeToJson (build_tree f rel fs))]) rootName =
      some (nodeToJson (build_tree f rel fs)) ∧
    RoundTrip (build_tree f rel fs) := by
  constructor
  · simp [jsonField, getField]
  · exact roundTrip_all (sizeOf (build_tree f rel fs)) _ le_rfl

/-- C9: over a filesystem whose entry names are well-formed (nonempty, not
`.`, no slash or backslash — what `iterdir` yields except for POSIX
backslash-in-name corner cases), every node's path is the forward-slash join
of its chain of entry names starting at the scan root (so joining it with the
root identifies the entry it was built from), is never absolute, and contains
no backslash. -/
theorem c9_paths (f : Filters) (fs : FS) (h : WFNames fs) :
    PathSpec "." fs (build_tree f "." fs) ∧ PathStringsOk (build_tree f "." fs) :=
  ⟨pathSpec_build f (sizeOf fs) fs le_rfl ".",
   pathStringsOk_build f (sizeOf fs) fs le_rfl "." h relOk_dot⟩

theorem c9_witness :
    PathSpec "." (FS.dir [("src", FS.dir [("a.txt", FS.file none)])])
      (build_tree ⟨[], [], [], []⟩ "." (FS.dir [("src", FS.dir [("a.txt", FS.file none)])])) ∧
    PathStringsOk
      (build_tree ⟨[], [], [], []⟩ "." (FS.dir [("src", FS.dir [("a.txt", FS.file none)])])) :=
  c9_paths ⟨[], [], [], []⟩ _
    (WFNames.dir _
      (by
        intro x hx
        simp only [List.mem_singleton] at hx
        subst hx
        decide)
      (by
        intro x hx
        simp only [List.mem_singleton] at hx
        subst hx
        exact WFNames.dir _
          (by
            intro x hx
            simp only [List.mem_singleton] at hx
            subst hx
            decide)
          (by
            intro x hx
            simp only [List.mem_singleton] at hx
            subst hx
            exact WFNames.file none)))

/-- C10: in every tree `build_tree` produces, each file node has either all
three manifest fields present or all three absent; and at node creation the
all-present case arises exactly from a `package.json` whose content parsed
and validated, every other file (including a failing `package.json`) getting
all three fields absent. -/
theorem c10_manifest_fields_all_or_none :
    (∀ (f : Filters) (rel : String) (fs : FS), FieldsInv (build_tree f rel fs)) ∧
    (∀ (name ruta : String) (c : Option Json),
       makeFileNode name ruta c = Node.file ruta none none none ∨
       (name = "package.json" ∧ ∃ pkg, c.bind PackageJson.model_validate = some pkg ∧
         makeFileNode name ruta c = Node.file ruta (some pkg.scripts)
           (some pkg.dependencies) (some pkg.devDependencies))) :=
  ⟨fun f rel fs => fieldsInv_build f (sizeOf fs) fs le_rfl rel,
   fun name ruta c => makeFileNode_cases name ruta c⟩
